import Mathlib

/-!
Verification model of the rule-based detection / scoring / rewrite engine of the
DeprecCheck repository.  Source text is modelled as `List Char`.

* String primitives model the JavaScript string operations used by the code
  (`includes`, `indexOf`, `replace` with a string needle, `split`/`join`,
  `trim`).
* A Brzozowski-derivative regex engine models `RegExp.exec` with the `g` flag
  for the pattern fragment used by the emulator rules (character literals,
  character classes, `\s`, concatenation, alternation, star/plus, and the `.`
  wildcard for string-built patterns).
* `runSimulation` embeds the function of the same name in
  `src/components/ShadowModeEmulator.tsx`; `handleApplyFix` / `handleFixAll`
  embed the fix handlers in `src/App.tsx`.
-/

namespace DeprecCheck

/-- Whitespace test used to model `String.prototype.trim` and the regex class
`\s`, restricted to the ASCII whitespace characters (11 = vertical tab,
12 = form feed); the texts considered here contain no exotic Unicode spaces. -/
def isJsWs (c : Char) : Bool :=
  c = ' ' || c = '\t' || c = '\n' || c = '\r' || c = Char.ofNat 11 || c = Char.ofNat 12

/-- Model of `String.prototype.trim`: strip leading and trailing whitespace. -/
def trimJS (s : List Char) : List Char :=
  ((s.dropWhile isJsWs).reverse.dropWhile isJsWs).reverse

/-- Model of `String.prototype.indexOf` with a string needle: index of the
leftmost occurrence of `pat` in `s`, if any. -/
def firstIndexOf (s pat : List Char) : Option Nat :=
  match s with
  | [] => if pat.isPrefixOf ([] : List Char) then some 0 else none
  | c :: t =>
    if pat.isPrefixOf (c :: t) then some 0 else (firstIndexOf t pat).map (· + 1)

/-- Model of `String.prototype.includes` (`s.includes(pat)`). -/
def includesJS (s pat : List Char) : Bool :=
  (firstIndexOf s pat).isSome

/-- ECMA-262 `GetSubstitution` for a string-pattern `replace`: interpret the
dollar escapes of the replacement string — `$$` gives a literal `$`, `$&` the
matched text, `$` followed by the backtick character (code 96) the portion of
the subject string preceding the match, `$` followed by the single-quote
character (code 39) the portion following it; any other `$` stays literal.
With a string pattern there are no capture groups, so `$1`-style references
are left as written. -/
def getSubstitution (matched before after : List Char) : List Char → List Char
  | [] => []
  | c :: rest =>
    if c = '$' then
      match rest with
      | [] => [c]
      | d :: rest2 =>
        if d = '$' then '$' :: getSubstitution matched before after rest2
        else if d = '&' then matched ++ getSubstitution matched before after rest2
        else if d = Char.ofNat 96 then before ++ getSubstitution matched before after rest2
        else if d = Char.ofNat 39 then after ++ getSubstitution matched before after rest2
        else c :: d :: getSubstitution matched before after rest2
    else c :: getSubstitution matched before after rest

/-- Model of `String.prototype.replace` with a plain-string pattern
(ECMA-262): find the first occurrence of `pat` in `s` and splice in the
replacement string after `GetSubstitution` dollar-escape interpretation
(the identity when `pat` is absent). -/
def replaceFirst (s pat repl : List Char) : List Char :=
  match firstIndexOf s pat with
  | none => s
  | some i =>
    s.take i ++ getSubstitution pat (s.take i) (s.drop (i + pat.length)) repl
      ++ s.drop (i + pat.length)

/-- Number of leftmost non-overlapping occurrences of a nonempty `pat` in `s`
(0 for the empty pattern, which the algorithms below never count). -/
def countOccur (s pat : List Char) : Nat :=
  if h : pat = [] then 0
  else
    match s with
    | [] => 0
    | c :: t =>
      if pat.isPrefixOf (c :: t) then 1 + countOccur (List.drop pat.length (c :: t)) pat
      else countOccur t pat
termination_by s.length
decreasing_by
  · have hp : 0 < pat.length := List.length_pos.mpr h
    simp [List.length_drop]
    omega
  · simp

/-- Worker for `splitJS` on a nonempty separator: `acc` holds the (reversed)
current chunk. -/
def splitGo (s sep acc : List Char) : List (List Char) :=
  if h : sep = [] then [acc.reverse]
  else
    match s with
    | [] => [acc.reverse]
    | c :: t =>
      if sep.isPrefixOf (c :: t) then
        acc.reverse :: splitGo (List.drop sep.length (c :: t)) sep []
      else splitGo t sep (c :: acc)
termination_by s.length
decreasing_by
  · have hp : 0 < sep.length := List.length_pos.mpr h
    simp [List.length_drop]
    omega
  · simp

/-- Model of `String.prototype.split` with a string separator: splits at the
leftmost non-overlapping occurrences; an empty separator splits into single
characters (JS semantics). -/
def splitJS (s sep : List Char) : List (List Char) :=
  if sep = [] then s.map (fun c => [c]) else splitGo s sep []

/-- Model of `Array.prototype.join`. -/
def joinWith (sep : List Char) : List (List Char) → List Char
  | [] => []
  | [x] => x
  | x :: y :: rest => x ++ sep ++ joinWith sep (y :: rest)

/-- Reference definition of global replacement: replace each leftmost
non-overlapping occurrence of a nonempty `pat` in `s` by `repl` (what the
spec calls replacing every occurrence); compared below with the `split`/`join`
implementation used by the bulk-fix code. -/
def replaceAllOcc (s pat repl : List Char) : List Char :=
  if h : pat = [] then s
  else
    match s with
    | [] => []
    | c :: t =>
      if pat.isPrefixOf (c :: t) then
        repl ++ replaceAllOcc (List.drop pat.length (c :: t)) pat repl
      else c :: replaceAllOcc t pat repl
termination_by s.length
decreasing_by
  · have hp : 0 < pat.length := List.length_pos.mpr h
    simp [List.length_drop]
    omega
  · simp

/-! ### Regular expressions (Brzozowski derivatives)

The AST covers the constructs appearing in the emulator rule patterns. -/

/-- Regular expression AST: empty language, empty string, single-character
class, concatenation, alternation, Kleene star. -/
inductive Rx where
  | emp : Rx
  | eps : Rx
  | cls (p : Char → Bool) : Rx
  | seq (a b : Rx) : Rx
  | alt (a b : Rx) : Rx
  | star (a : Rx) : Rx

/-- Does the regex accept the empty string? -/
def nullable : Rx → Bool
  | .emp => false
  | .eps => true
  | .cls _ => false
  | .seq a b => nullable a && nullable b
  | .alt a b => nullable a || nullable b
  | .star _ => true

/-- Brzozowski derivative with respect to one character. -/
def deriv (c : Char) : Rx → Rx
  | .emp => .emp
  | .eps => .emp
  | .cls p => if p c then .eps else .emp
  | .seq a b =>
    if nullable a then .alt (.seq (deriv c a) b) (deriv c b) else .seq (deriv c a) b
  | .alt a b => .alt (deriv c a) (deriv c b)
  | .star a => .seq (deriv c a) (.star a)

/-- Derivative with respect to a word. -/
def derivs (r : Rx) (l : List Char) : Rx :=
  l.foldl (fun r c => deriv c r) r

/-- Does `r` match exactly the first `n` characters of `t`? (Meaningful for
`n ≤ t.length`.) -/
def matchesTake (r : Rx) (t : List Char) (n : Nat) : Bool :=
  nullable (derivs r (t.take n))

/-- Longest `k ≤ n` such that `r` matches `t.take k`, if any. -/
def matchLenAux (r : Rx) (t : List Char) : Nat → Option Nat
  | 0 => if nullable r then some 0 else none
  | n + 1 => if matchesTake r t (n + 1) then some (n + 1) else matchLenAux r t n

/-- Greedy match length of `r` at the start of `t`: the longest prefix of `t`
matched by `r`.  This models the length of `match[0]` chosen by the JS engine;
for the greedy, ambiguity-free patterns used by the emulator rules the
backtracking choice coincides with maximal munch. -/
def matchLen (r : Rx) (t : List Char) : Option Nat :=
  matchLenAux r t t.length

/-- One `RegExp.exec` step for a global regex with `lastIndex = pos`: scan
forward for the leftmost position at which a match exists, returning
`(index, length)`; `none` when the end of input is passed without a match. -/
def findFrom (r : Rx) (s : List Char) (pos : Nat) : Option (Nat × Nat) :=
  if h : pos ≤ s.length then
    match matchLen r (List.drop pos s) with
    | some L => some (pos, L)
    | none => findFrom r s (pos + 1)
  else none
termination_by s.length + 1 - pos
decreasing_by omega

/-- The sequence of matches produced by the `while ((match = regex.exec(code)))`
loop, where each successful `exec` sets `lastIndex` to `index + length`.
`fuel` bounds the number of iterations; `none` models a loop that fails to
finish within the bound — exactly what happens for a pattern that produces an
empty match, where `lastIndex` never advances and the JS loop spins forever. -/
def execAllF (r : Rx) (s : List Char) : Nat → Nat → Option (List (Nat × Nat))
  | 0, _ => none
  | fl + 1, pos =>
    match findFrom r s pos with
    | none => some []
    | some (i, L) => (execAllF r s fl (i + L)).map (fun ms => (i, L) :: ms)

/-- All matches of the global regex `r` over `s` from position 0.  The fuel
`s.length + 1` is an a-priori bound on the iteration count of a terminating
run: every nonempty match advances the position. -/
def execAll (r : Rx) (s : List Char) : Option (List (Nat × Nat)) :=
  execAllF r s (s.length + 1) 0

/-- Single-character regex matching exactly `c`. -/
def lchr (c : Char) : Rx :=
  Rx.cls (fun a => a = c)

/-- Regex matching the literal word `s`. -/
def litRx (s : List Char) : Rx :=
  s.foldr (fun c r => Rx.seq (lchr c) r) Rx.eps

/-- `r+` as `r r*`. -/
def plusRx (r : Rx) : Rx :=
  Rx.seq r (Rx.star r)

/-- The class `\s`. -/
def wsCls : Rx :=
  Rx.cls isJsWs

/-- Model of `new RegExp(str, 'g')`: compilation of a pattern *string* into a
regex.  Modelled for the fragment in which each character of the string is
either the metacharacter `.` (compiled to a wildcard matching any character) or
an ordinary, literally-matched character; other regex metacharacters are not
modelled.  Note the string is NOT matched literally: this is the
`typeof rule.pattern === 'string' ? new RegExp(rule.pattern, 'g') : rule.pattern`
branch of `runSimulation`. -/
def strToRx (s : List Char) : Rx :=
  s.foldr
    (fun c r => Rx.seq (if c = '.' then Rx.cls (fun _ => true) else lchr c) r) Rx.eps

/-- Wildcard prefix matching: the compiled form of pattern string `s` matches
the first `s.length` characters of `t` (each `.` in `s` matching any single
character). -/
def litMatches : List Char → List Char → Bool
  | [], _ => true
  | _ :: _, [] => false
  | c :: s, a :: t => (if c = '.' then true else a = c) && litMatches s t

/-! ### Emulator data model and `runSimulation` -/

/-- Severity levels of `ShadowModeEmulator.tsx`. -/
inductive Severity where
  | Critical
  | Warning
  | Info
deriving DecidableEq

/-- A rule matcher: a plain string or a regular expression
(`pattern: RegExp | string`). -/
inductive Matcher where
  | strPat (s : List Char)
  | rePat (r : Rx)

/-- `BreakageRule` of `ShadowModeEmulator.tsx`.  `fixReplacer` is the optional
full-text rewrite function `(code, match) => string` (its unused second
argument is dropped). -/
structure BreakageRule where
  id : List Char
  pattern : Matcher
  severity : Severity
  message : List Char
  migrationSuggestion : List Char
  fixReplacer : Option (List Char → List Char)

/-- `EmulatorProfile`; the presentation-only fields `description`, `icon` and
`colorTheme` are omitted (never read by the engine). -/
structure EmulatorProfile where
  id : List Char
  name : List Char
  versionLabel : List Char
  rules : List BreakageRule

/-- `DetectedBreakage`; the source field `match` is called `matchText` here
because `match` is a Lean keyword. -/
structure DetectedBreakage where
  ruleId : List Char
  severity : Severity
  message : List Char
  line : Nat
  matchText : List Char
  suggestion : List Char
deriving DecidableEq

/-- `EmulationResult`. -/
structure EmulationResult where
  score : Int
  breakages : List DetectedBreakage
  patchedCode : List Char
  logs : List (List Char)
deriving DecidableEq

/-- The compiled regex of a rule:
`typeof rule.pattern === 'string' ? new RegExp(rule.pattern, 'g') : rule.pattern`. -/
def ruleRx (rule : BreakageRule) : Rx :=
  match rule.pattern with
  | .strPat s => strToRx s
  | .rePat r => r

/-- All matches of a rule over the input code (the exec loop of
`runSimulation`, after `regex.lastIndex = 0`). -/
def ruleMatches (rule : BreakageRule) (code : List Char) : Option (List (Nat × Nat)) :=
  execAll (ruleRx rule) code

/-- The breakage pushed for one match `(index, length)`:
line is `code.substring(0, match.index).split('\n').length` and the matched
text is `match[0]`. -/
def mkBreakage (code : List Char) (rule : BreakageRule) (m : Nat × Nat) : DetectedBreakage :=
  { ruleId := rule.id
    severity := rule.severity
    message := rule.message
    line := (splitJS (code.take m.1) ['\n']).length
    matchText := (code.drop m.1).take m.2
    suggestion := rule.migrationSuggestion }

/-- The log line pushed for a rule with at least one match. -/
def logLineOf (rule : BreakageRule) : List Char :=
  if rule.severity = Severity.Critical then
    ("[Error] Runtime Exception: ".toList) ++ rule.message
  else
    ("[Warn] Deprecation Notice: ".toList) ++ rule.message

/-- The `profile.rules.forEach` body of `runSimulation`: processes the rules in
order against the fixed input `code` while threading the progressively patched
text, collecting breakages and per-rule log lines.  `none` propagates a
non-terminating exec loop. -/
def scanGo (code : List Char) : List BreakageRule → List Char →
    Option (List DetectedBreakage × List (List Char) × List Char)
  | [], patched => some ([], [], patched)
  | rule :: rest, patched =>
    match ruleMatches rule code with
    | none => none
    | some ms =>
      let hasMatch := !ms.isEmpty
      let patched' :=
        if hasMatch then
          match rule.fixReplacer with
          | some f => f patched
          | none => patched
        else patched
      (scanGo code rest patched').map (fun out =>
        (ms.map (mkBreakage code rule) ++ out.1,
         (if hasMatch then [logLineOf rule] else []) ++ out.2.1,
         out.2.2))

/-- One step of the score fold: the three severity tests of `runSimulation`
(`score -= 25` / `-= 10` / `-= 2`; the severities are mutually exclusive). -/
def scoreStep (sc : Int) (b : DetectedBreakage) : Int :=
  match b.severity with
  | .Critical => sc - 25
  | .Warning => sc - 10
  | .Info => sc - 2

/-- The score computation of `runSimulation`: start at 100, subtract the
per-severity penalty for each breakage, then `Math.max(0, score)`. -/
def computeScore (bs : List DetectedBreakage) : Int :=
  max 0 (bs.foldl scoreStep 100)

/-- Penalty constant per severity (for stating properties of the scorer). -/
def severityPenalty : Severity → Int
  | .Critical => 25
  | .Warning => 10
  | .Info => 2

/-- Number of findings of a given severity (for stating properties of the
scorer). -/
def countSev (sv : Severity) (bs : List DetectedBreakage) : Nat :=
  (bs.filter (fun b => b.severity == sv)).length

/-- The initial boot log line. -/
def bootLog (p : EmulatorProfile) : List Char :=
  ("[System] Booting ".toList) ++ p.name ++ [' '] ++ p.versionLabel ++ (" Kernel...".toList)

/-- The terminal log line when no breakage was found. -/
def successLog (p : EmulatorProfile) : List Char :=
  ("[Success] Application mounted successfully in ".toList) ++ p.versionLabel ++ (".".toList)

/-- The terminal log line when breakages were found. -/
def terminatedLog (n : Nat) : List Char :=
  ("[System] Process terminated with ".toList) ++ (Nat.repr n).toList ++ (" issues.".toList)

/-- Embedding of `runSimulation` (`src/components/ShadowModeEmulator.tsx`,
lines 196-261).  Returns `none` when an exec loop fails to terminate (possible
only for a pattern with empty matches).  Note the returned `patchedCode` is
`patchedCode !== code ? patchedCode : ''`. -/
def runSimulation (code : List Char) (profile : EmulatorProfile) : Option EmulationResult :=
  (scanGo code profile.rules code).map (fun out =>
    { score := computeScore out.1
      breakages := out.1
      patchedCode := if out.2.2 ≠ code then out.2.2 else []
      logs := bootLog profile ::
        (out.2.1 ++
          [if out.1.isEmpty then successLog profile else terminatedLog out.1.length]) })

/-! ### The built-in profile patterns (for the termination analysis)

Hand translations of the 14 regex literals of `EMULATOR_PROFILES`. -/

/-- `/forwardRef\s*\(/g` (react-19, no-forward-ref). -/
def patForwardRef : Rx :=
  .seq (litRx ("forwardRef".toList)) (.seq (.star wsCls) (lchr '('))

/-- `/useCallback\(/g` (react-19, use-callback-obsolete). -/
def patUseCallback : Rx :=
  litRx ("useCallback(".toList)

/-- `/\.defaultProps\s*=/g` (react-19, no-default-props). -/
def patDefaultProps : Rx :=
  .seq (litRx (".defaultProps".toList)) (.seq (.star wsCls) (lchr '='))

/-- `/componentWill(Mount|ReceiveProps|Update)/g` (react-19, legacy-lifecycle). -/
def patLegacyLifecycle : Rx :=
  .seq (litRx ("componentWill".toList))
    (.alt (litRx ("Mount".toList)) (.alt (litRx ("ReceiveProps".toList)) (litRx ("Update".toList))))

/-- The class `['"]` (39 is the single-quote character). -/
def quoteCls : Rx :=
  Rx.cls (fun c => c = '"' || c = Char.ofNat 39)

/-- The class `[^'"]`. -/
def nonQuoteCls : Rx :=
  Rx.cls (fun c => !(c = '"' || c = Char.ofNat 39))

/-- `/require\s*\(['"][^'"]+['"]\)/g` (node-24, no-require). -/
def patRequire : Rx :=
  .seq (litRx ("require".toList))
    (.seq (.star wsCls)
      (.seq (lchr '(')
        (.seq quoteCls (.seq (plusRx nonQuoteCls) (.seq quoteCls (lchr ')'))))))

/-- `/__dirname/g` (node-24, no-dirname). -/
def patDirname : Rx :=
  litRx ("__dirname".toList)

/-- `/fs\.exists\(/g` (node-24, fs-exists-removed). -/
def patFsExists : Rx :=
  litRx ("fs.exists(".toList)

/-- `/new\s+Buffer\(/g` (node-24, buffer-constructor). -/
def patBufferCtor : Rx :=
  .seq (litRx ("new".toList)) (.seq (plusRx wsCls) (litRx ("Buffer(".toList)))

/-- `/@Input\(\)/g` (angular-2026, input-decorator). -/
def patInputDecorator : Rx :=
  litRx ("@Input()".toList)

/-- `/\*ngIf/g` (angular-2026, ng-if-directive). -/
def patNgIf : Rx :=
  litRx ("*ngIf".toList)

/-- `/NgZone/g` (angular-2026, zone-usage). -/
def patNgZone : Rx :=
  litRx ("NgZone".toList)

/-- `/data\s*\(\)\s*\{/g` (vue-5, options-api-data; 123 is the opening brace). -/
def patOptionsData : Rx :=
  .seq (litRx ("data".toList))
    (.seq (.star wsCls) (.seq (litRx ("()".toList)) (.seq (.star wsCls) (lchr (Char.ofNat 123)))))

/-- `/v-model:value/g` (vue-5, legacy-v-model). -/
def patVModelValue : Rx :=
  litRx ("v-model:value".toList)

/-- `/Vue\.observable/g` (vue-5, vue-observable). -/
def patVueObservable : Rx :=
  litRx ("Vue.observable".toList)

/-- The rule patterns of the react-19 profile, in rule order. -/
def reactPatterns : List Rx :=
  [patForwardRef, patUseCallback, patDefaultProps, patLegacyLifecycle]

/-- The rule patterns of the node-24 profile, in rule order. -/
def nodePatterns : List Rx :=
  [patRequire, patDirname, patFsExists, patBufferCtor]

/-- The rule patterns of the angular-2026 profile, in rule order. -/
def angularPatterns : List Rx :=
  [patInputDecorator, patNgIf, patNgZone]

/-- The rule patterns of the vue-5 profile, in rule order. -/
def vuePatterns : List Rx :=
  [patOptionsData, patVModelValue, patVueObservable]

/-- The matcher patterns of the four built-in profiles of `EMULATOR_PROFILES`
(react-19, node-24, angular-2026, vue-5).  The termination of a scan depends
only on the patterns, so the rule metadata and `fixReplacer` bodies are not
repeated here. -/
def emulatorProfilePatterns : List (List Rx) :=
  [reactPatterns, nodePatterns, angularPatterns, vuePatterns]

/-- The zone-usage rule of the angular-2026 profile (it has no `fixReplacer`). -/
def zoneRule : BreakageRule :=
  { id := ("zone-usage".toList)
    pattern := Matcher.rePat patNgZone
    severity := Severity.Critical
    message := ("NgZone dependency injection failed. App is running Zoneless.".toList)
    migrationSuggestion := ("Remove Zone.js dependencies and use Signals for reactivity.".toList)
    fixReplacer := none }

/-- Concrete profile value used as scan input in witnesses and counterexamples:
the angular-2026 profile metadata carrying its zone-usage rule. -/
def zoneProfile : EmulatorProfile :=
  { id := ("angular-2026".toList)
    name := ("Angular".toList)
    versionLabel := ("v20 (Zoneless)".toList)
    rules := [zoneRule] }

/-- A rule whose matcher is the plain string `a.c` (concrete input for the
string-matcher analysis). -/
def dotRule : BreakageRule :=
  { id := ("dot-rule".toList)
    pattern := Matcher.strPat ("a.c".toList)
    severity := Severity.Warning
    message := ("sample".toList)
    migrationSuggestion := ("sample".toList)
    fixReplacer := none }

/-! ### The App fix handlers -/

/-- The two fields of `Issue` (`src/types.ts`) read by the fix handlers; the
presentation fields (`id`, `title`, `description`, dates, category, severity)
are never consulted by `handleApplyFix` / `handleFixAll` and are omitted. -/
structure Issue where
  affectedCode : List Char
  replacementCode : List Char
deriving DecidableEq

/-- Sort relation of `handleFixAll`:
`(a, b) => b.affectedCode.length - a.affectedCode.length`, i.e. descending
matched-text length. -/
def lenGE (a b : Issue) : Prop :=
  b.affectedCode.length ≤ a.affectedCode.length

instance : DecidableRel lenGE :=
  fun _ _ => Nat.decLe _ _

instance : IsTotal Issue lenGE :=
  ⟨fun a b => le_total b.affectedCode.length a.affectedCode.length⟩

instance : IsTrans Issue lenGE :=
  ⟨fun _ _ _ hab hbc => le_trans hbc hab⟩

/-- `[...report.issues].sort((a, b) => b.affectedCode.length - a.affectedCode.length)`:
a stable sort by matched-text length, descending (JS `sort` is stable). -/
def sortIssues (issues : List Issue) : List Issue :=
  List.insertionSort lenGE issues

/-- One iteration of the `sortedIssues.forEach` body of `handleFixAll`:
exact-then-trimmed lookup against the current text, then a global replace via
`split`/`join`, accumulating the applied count and the two highlight lists. -/
def fixAllStep (acc : List Char × Nat × List (List Char) × List (List Char))
    (issue : Issue) : List Char × Nat × List (List Char) × List (List Char) :=
  let cur := acc.1
  let found : Option (List Char) :=
    if includesJS cur issue.affectedCode then some issue.affectedCode
    else if includesJS cur (trimJS issue.affectedCode) then some (trimJS issue.affectedCode)
    else none
  match found with
  | none => acc
  | some mt =>
    let parts := splitJS cur mt
    if 1 < parts.length then
      (joinWith issue.replacementCode parts,
       acc.2.1 + (parts.length - 1),
       acc.2.2.1 ++ [mt],
       acc.2.2.2 ++ [issue.replacementCode])
    else acc

/-- The text/count/highlights computation of `handleFixAll`
(`src/App.tsx`, lines 213-248). -/
def fixAllCore (text : List Char) (issues : List Issue) :
    List Char × Nat × List (List Char) × List (List Char) :=
  (sortIssues issues).foldl fixAllStep (text, 0, [], [])

/-- Outcome of `handleFixAll`: early return on an empty issue list, the
`appliedCount === 0` alert path (text untouched), or a successful application
with the new text, the applied count and the highlight lists. -/
inductive FixAllOutcome where
  | nothingToFix
  | noApplicableFixes
  | applied (newText : List Char) (count : Nat)
      (originalHighlights rewrittenHighlights : List (List Char))
deriving DecidableEq

/-- Embedding of `handleFixAll` (`src/App.tsx`, lines 213-274). -/
def handleFixAll (text : List Char) (issues : List Issue) : FixAllOutcome :=
  if issues.isEmpty then .nothingToFix
  else
    let out := fixAllCore text issues
    if out.2.1 = 0 then .noApplicableFixes
    else .applied out.1 out.2.1 out.2.2.1 out.2.2.2

/-- Embedding of `handleApplyFix` (`src/App.tsx`, lines 172-206): exact lookup,
trimmed-lookup fallback, first-occurrence replacement; `none` is the
"could not locate the snippet" alert path, on which the text is unchanged. -/
def handleApplyFix (code : List Char) (issue : Issue) : Option (List Char) :=
  let mt :=
    if !(includesJS code issue.affectedCode) && includesJS code (trimJS issue.affectedCode)
    then trimJS issue.affectedCode
    else issue.affectedCode
  if includesJS code mt then some (replaceFirst code mt issue.replacementCode) else none

/-! ## Lemmas about the string primitives -/

theorem firstIndexOf_isPrefixOf {s pat : List Char} {i : Nat}
    (h : firstIndexOf s pat = some i) : pat.isPrefixOf (s.drop i) = true := by
  induction s generalizing i with
  | nil =>
    rw [firstIndexOf] at h
    split at h
    · cases h; simpa using ‹pat.isPrefixOf ([] : List Char) = true›
    · cases h
  | cons c t ih =>
    rw [firstIndexOf] at h
    split at h
    · cases h; simpa using ‹pat.isPrefixOf (c :: t) = true›
    · obtain ⟨j, hj, rfl⟩ := Option.map_eq_some'.mp h
      simpa using ih hj

theorem firstIndexOf_min {s pat : List Char} {i : Nat}
    (h : firstIndexOf s pat = some i) :
    ∀ j, j < i → pat.isPrefixOf (s.drop j) = false := by
  induction s generalizing i with
  | nil =>
    rw [firstIndexOf] at h
    split at h
    · cases h; omega
    · cases h
  | cons c t ih =>
    rw [firstIndexOf] at h
    split at h
    · cases h; omega
    · obtain ⟨k, hk, rfl⟩ := Option.map_eq_some'.mp h
      intro j hj
      match j with
      | 0 =>
        simp only [List.drop_zero]
        exact Bool.eq_false_iff.mpr ‹¬ pat.isPrefixOf (c :: t) = true›
      | j + 1 =>
        simpa using ih hk j (by omega)

theorem firstIndexOf_bound {s pat : List Char} {i : Nat}
    (h : firstIndexOf s pat = some i) : i + pat.length ≤ s.length := by
  induction s generalizing i with
  | nil =>
    rw [firstIndexOf] at h
    split at h
    · cases h
      have := List.IsPrefix.length_le (List.isPrefixOf_iff_prefix.mp ‹_›)
      simpa using this
    · cases h
  | cons c t ih =>
    rw [firstIndexOf] at h
    split at h
    · cases h
      have := List.IsPrefix.length_le (List.isPrefixOf_iff_prefix.mp ‹_›)
      simpa using this
    · obtain ⟨k, hk, rfl⟩ := Option.map_eq_some'.mp h
      have := ih hk
      simp
      omega

theorem replaceFirst_of_none {s pat : List Char} (repl : List Char)
    (h : firstIndexOf s pat = none) : replaceFirst s pat repl = s := by
  rw [replaceFirst, h]

theorem replaceFirst_of_some {s pat : List Char} {i : Nat} (repl : List Char)
    (h : firstIndexOf s pat = some i) :
    replaceFirst s pat repl =
      s.take i ++ getSubstitution pat (s.take i) (s.drop (i + pat.length)) repl
        ++ s.drop (i + pat.length) := by
  rw [replaceFirst, h]

theorem countOccur_nil (pat : List Char) : countOccur [] pat = 0 := by
  rw [countOccur]
  split <;> rfl

theorem countOccur_of_none {s pat : List Char} (hpat : pat ≠ [])
    (h : firstIndexOf s pat = none) : countOccur s pat = 0 := by
  induction s with
  | nil => exact countOccur_nil pat
  | cons c t ih =>
    rw [firstIndexOf] at h
    rw [countOccur]
    split at h
    · cases h
    · have ht : firstIndexOf t pat = none := by
        cases hh : firstIndexOf t pat with
        | none => rfl
        | some v => rw [hh] at h; cases h
      simp only [dif_neg hpat, if_neg ‹¬ pat.isPrefixOf (c :: t) = true›]
      exact ih ht

theorem countOccur_of_some {s pat : List Char} {i : Nat} (hpat : pat ≠ [])
    (h : firstIndexOf s pat = some i) :
    countOccur s pat = 1 + countOccur (s.drop (i + pat.length)) pat := by
  induction s generalizing i with
  | nil =>
    rw [firstIndexOf] at h
    split at h
    · exact absurd (List.prefix_nil.mp (List.isPrefixOf_iff_prefix.mp ‹_›)) hpat
    · cases h
  | cons c t ih =>
    rw [firstIndexOf] at h
    rw [countOccur]
    split at h
    · cases h
      simp only [dif_neg hpat, if_pos ‹pat.isPrefixOf (c :: t) = true›]
      simp
    · obtain ⟨k, hk, rfl⟩ := Option.map_eq_some'.mp h
      simp only [dif_neg hpat, if_neg ‹¬ pat.isPrefixOf (c :: t) = true›]
      rw [ih hk]
      have h1 : k + 1 + pat.length = (k + pat.length) + 1 := by omega
      rw [h1, List.drop_succ_cons]

theorem includesJS_iff_firstIndexOf {s pat : List Char} :
    includesJS s pat = true ↔ ∃ i, firstIndexOf s pat = some i := by
  simp [includesJS, Option.isSome_iff_exists]

theorem countOccur_pos_of_includes {s pat : List Char} (hpat : pat ≠ [])
    (h : includesJS s pat = true) : 0 < countOccur s pat := by
  obtain ⟨i, hi⟩ := includesJS_iff_firstIndexOf.mp h
  rw [countOccur_of_some hpat hi]
  omega

theorem countOccur_zero_of_not_includes {s pat : List Char} (hpat : pat ≠ [])
    (h : includesJS s pat = false) : countOccur s pat = 0 := by
  apply countOccur_of_none hpat
  cases hh : firstIndexOf s pat with
  | none => rfl
  | some v => simp [includesJS, hh] at h

theorem splitGo_ne_nil {sep : List Char} (hsep : sep ≠ []) :
    ∀ (n : Nat) (s acc : List Char), s.length ≤ n → splitGo s sep acc ≠ [] := by
  intro n
  induction n with
  | zero =>
    intro s acc hs
    have : s = [] := List.length_eq_zero.mp (by omega)
    subst this
    rw [splitGo]
    simp [dif_neg hsep]
  | succ n ih =>
    intro s acc hs
    rw [splitGo.eq_def]
    simp only [dif_neg hsep]
    match s with
    | [] => simp
    | c :: t =>
      by_cases hp : sep.isPrefixOf (c :: t) = true
      · simp [hp]
      · simp only [if_neg hp]
        exact ih t (c :: acc) (by simp at hs; omega)

theorem splitGo_length {sep : List Char} (hsep : sep ≠ []) :
    ∀ (n : Nat) (s acc : List Char), s.length ≤ n →
      (splitGo s sep acc).length = countOccur s sep + 1 := by
  intro n
  induction n with
  | zero =>
    intro s acc hs
    have : s = [] := List.length_eq_zero.mp (by omega)
    subst this
    rw [splitGo]
    simp [dif_neg hsep, countOccur_nil]
  | succ n ih =>
    intro s acc hs
    rw [splitGo.eq_def, countOccur.eq_def]
    simp only [dif_neg hsep]
    match s with
    | [] => simp
    | c :: t =>
      by_cases hp : sep.isPrefixOf (c :: t) = true
      · simp only [if_pos hp, List.length_cons]
        have hlen : 0 < sep.length := List.length_pos.mpr hsep
        rw [ih (List.drop sep.length (c :: t)) []
          (by simp at hs ⊢; omega)]
        omega
      · simp only [if_neg hp]
        exact ih t (c :: acc) (by simp at hs; omega)

theorem joinWith_splitGo {sep : List Char} (hsep : sep ≠ []) :
    ∀ (n : Nat) (s acc repl : List Char), s.length ≤ n →
      joinWith repl (splitGo s sep acc) = acc.reverse ++ replaceAllOcc s sep repl := by
  intro n
  induction n with
  | zero =>
    intro s acc repl hs
    have : s = [] := List.length_eq_zero.mp (by omega)
    subst this
    rw [splitGo, replaceAllOcc]
    simp [dif_neg hsep, joinWith]
  | succ n ih =>
    intro s acc repl hs
    rw [splitGo.eq_def, replaceAllOcc.eq_def]
    simp only [dif_neg hsep]
    match s with
    | [] => simp [joinWith]
    | c :: t =>
      by_cases hp : sep.isPrefixOf (c :: t) = true
      · simp only [if_pos hp]
        have hlen : 0 < sep.length := List.length_pos.mpr hsep
        have hrec := ih (List.drop sep.length (c :: t)) [] repl
          (by simp at hs ⊢; omega)
        obtain ⟨y, l, hyl⟩ :=
          List.exists_cons_of_ne_nil
            (splitGo_ne_nil hsep n (List.drop sep.length (c :: t)) []
              (by simp at hs ⊢; omega))
        rw [hyl]
        rw [hyl] at hrec
        simp only [joinWith]
        simp only [List.reverse_nil, List.nil_append] at hrec
        rw [hrec]
        simp
      · simp only [if_neg hp]
        rw [ih t (c :: acc) repl (by simp at hs; omega)]
        simp

theorem splitJS_length {s sep : List Char} (hsep : sep ≠ []) :
    (splitJS s sep).length = countOccur s sep + 1 := by
  rw [splitJS, if_neg hsep]
  exact splitGo_length hsep s.length s [] le_rfl

theorem joinWith_splitJS {s sep : List Char} (hsep : sep ≠ []) (repl : List Char) :
    joinWith repl (splitJS s sep) = replaceAllOcc s sep repl := by
  rw [splitJS, if_neg hsep]
  simpa using joinWith_splitGo hsep s.length s [] repl le_rfl

theorem countOccur_singleton (s : List Char) (c : Char) :
    countOccur s [c] = s.count c := by
  induction s with
  | nil => simp [countOccur_nil]
  | cons a t ih =>
    rw [countOccur]
    simp only [dif_neg (by simp : ([c] : List Char) ≠ [])]
    by_cases hac : c = a
    · subst hac
      have hp : ([c] : List Char).isPrefixOf (c :: t) = true := by
        simp [List.isPrefixOf]
      have hd : List.drop ([c] : List Char).length (c :: t) = t := by simp
      rw [if_pos hp, hd, ih, List.count_cons]
      simp
      omega
    · have hnp : ([c] : List Char).isPrefixOf (a :: t) = false := by
        have hba : (c == a) = false := beq_eq_false_iff_ne.mpr hac
        simp [List.isPrefixOf, hba]
      rw [if_neg (by simp [hnp]), ih, List.count_cons]
      have hba : (c == a) = false := beq_eq_false_iff_ne.mpr hac
      simp [hba]
      exact fun hc => hac hc.symm

theorem splitJS_newline_length (s : List Char) :
    (splitJS s ['\n']).length = 1 + s.count '\n' := by
  rw [splitJS_length (by simp), countOccur_singleton]
  omega

/-! ## Lemmas about the scorer -/

theorem scoreStep_eq (sc : Int) (b : DetectedBreakage) :
    scoreStep sc b = sc - severityPenalty b.severity := by
  cases hb : b.severity <;> simp [scoreStep, severityPenalty, hb]

theorem foldl_scoreStep (bs : List DetectedBreakage) :
    ∀ init : Int,
      bs.foldl scoreStep init = init - (bs.map (fun b => severityPenalty b.severity)).sum := by
  induction bs with
  | nil => intro init; simp
  | cons b t ih =>
    intro init
    simp only [List.foldl_cons, scoreStep_eq, ih, List.map_cons, List.sum_cons]
    ring

theorem penaltySum_eq_counts (bs : List DetectedBreakage) :
    (bs.map (fun b => severityPenalty b.severity)).sum =
      25 * (countSev Severity.Critical bs : Int) + 10 * (countSev Severity.Warning bs : Int)
        + 2 * (countSev Severity.Info bs : Int) := by
  induction bs with
  | nil => simp [countSev]
  | cons b t ih =>
    cases hb : b.severity <;>
      · simp only [List.map_cons, List.sum_cons, ih, countSev, List.filter_cons, hb]
        simp [severityPenalty]
        ring

/-- Claim C1: for every findings list, the score computed by `runSimulation`
equals `max 0 (100 − 25·#Critical − 10·#Warning − 2·#Info)`; it is always an
integer in `[0, 100]`; and appending one more Critical finding never increases
it. -/
theorem score_formula_bounds_monotone (bs : List DetectedBreakage) :
    computeScore bs =
      max 0 (100 - 25 * (countSev Severity.Critical bs : Int)
        - 10 * (countSev Severity.Warning bs : Int)
        - 2 * (countSev Severity.Info bs : Int))
    ∧ 0 ≤ computeScore bs ∧ computeScore bs ≤ 100
    ∧ ∀ b : DetectedBreakage, b.severity = Severity.Critical →
        computeScore (bs ++ [b]) ≤ computeScore bs := by
  have hform : computeScore bs =
      max 0 (100 - 25 * (countSev Severity.Critical bs : Int)
        - 10 * (countSev Severity.Warning bs : Int)
        - 2 * (countSev Severity.Info bs : Int)) := by
    rw [computeScore, foldl_scoreStep, penaltySum_eq_counts]
    ring_nf
  refine ⟨hform, le_max_left _ _, ?_, ?_⟩
  · rw [hform]
    apply max_le (by norm_num)
    have h1 : (0 : Int) ≤ (countSev Severity.Critical bs : Int) := Int.natCast_nonneg _
    have h2 : (0 : Int) ≤ (countSev Severity.Warning bs : Int) := Int.natCast_nonneg _
    have h3 : (0 : Int) ≤ (countSev Severity.Info bs : Int) := Int.natCast_nonneg _
    omega
  · intro b hb
    rw [computeScore, computeScore, foldl_scoreStep, foldl_scoreStep]
    have : ((bs ++ [b]).map (fun b => severityPenalty b.severity)).sum =
        (bs.map (fun b => severityPenalty b.severity)).sum + 25 := by
      simp [hb, severityPenalty]
    rw [this]
    exact max_le_max le_rfl (by omega)

/-- Witness for C1 at a concrete findings list (one Critical, one Warning):
score 65, and appending another Critical does not increase it. -/
theorem score_formula_bounds_monotone_witness :
    computeScore
        [⟨("r1".toList), Severity.Critical, [], 1, [], []⟩,
         ⟨("r2".toList), Severity.Warning, [], 2, [], []⟩] =
      max 0 (100 - 25 * (countSev Severity.Critical
          [⟨("r1".toList), Severity.Critical, [], 1, [], []⟩,
           ⟨("r2".toList), Severity.Warning, [], 2, [], []⟩] : Int)
        - 10 * (countSev Severity.Warning
          [⟨("r1".toList), Severity.Critical, [], 1, [], []⟩,
           ⟨("r2".toList), Severity.Warning, [], 2, [], []⟩] : Int)
        - 2 * (countSev Severity.Info
          [⟨("r1".toList), Severity.Critical, [], 1, [], []⟩,
           ⟨("r2".toList), Severity.Warning, [], 2, [], []⟩] : Int))
    ∧ computeScore
        ([⟨("r1".toList), Severity.Critical, [], 1, [], []⟩,
          ⟨("r2".toList), Severity.Warning, [], 2, [], []⟩] ++
         [⟨("r3".toList), Severity.Critical, [], 3, [], []⟩]) ≤
      computeScore
        [⟨("r1".toList), Severity.Critical, [], 1, [], []⟩,
         ⟨("r2".toList), Severity.Warning, [], 2, [], []⟩] :=
  ⟨(score_formula_bounds_monotone _).1,
   (score_formula_bounds_monotone _).2.2.2 ⟨("r3".toList), Severity.Critical, [], 3, [], []⟩ rfl⟩

/-- Claim C8: the scorer is order-independent — scoring any permutation of a
findings list yields the same score. -/
theorem score_perm_invariant (bs bs' : List DetectedBreakage) (h : bs.Perm bs') :
    computeScore bs = computeScore bs' := by
  rw [computeScore, computeScore, foldl_scoreStep, foldl_scoreStep,
    (h.map (fun b => severityPenalty b.severity)).sum_eq]

/-- Witness for C8 at a concrete two-element findings list and its swap. -/
theorem score_perm_invariant_witness :
    computeScore
        [⟨("r1".toList), Severity.Critical, [], 1, [], []⟩,
         ⟨("r2".toList), Severity.Info, [], 2, [], []⟩] =
      computeScore
        [⟨("r2".toList), Severity.Info, [], 2, [], []⟩,
         ⟨("r1".toList), Severity.Critical, [], 1, [], []⟩] :=
  score_perm_invariant _ _ (List.Perm.swap _ _ _)

/-! ## The rewrite engine: single fix (C3), bulk fix (C2, C9) -/

theorem getSubstitution_no_dollar (matched before after : List Char) :
    ∀ repl : List Char, (∀ c ∈ repl, ¬ c = '$') →
      getSubstitution matched before after repl = repl := by
  intro repl
  induction repl with
  | nil => intro _; rfl
  | cons c rest ih =>
    intro h
    have hc : ¬ c = '$' := h c (by simp)
    have hstep : getSubstitution matched before after (c :: rest)
        = c :: getSubstitution matched before after rest := by
      rw [getSubstitution.eq_def]
      simp [hc]
    rw [hstep, ih (fun x hx => h x (by simp [hx]))]

/-- Amended claim C3: `handleApplyFix` looks the matched text up by exact
substring search, retries with the whitespace-trimmed form if absent, and on
success replaces exactly the first occurrence (witnessed by the minimal index)
with the replacement string as interpreted by the `$`-substitution of JS
`String.replace` (`$$`, `$&`, `$`-backtick, `$`-quote; the claim as frozen
says the replacement text is inserted verbatim, which fails for replacements
containing `$` escapes — see the counterexample); in particular the
replacement text is inserted verbatim whenever it contains no `$`.  When
neither form is present, a not-found condition is reported and the text is
left unchanged. -/
theorem single_fix_behavior (code a r : List Char) :
    (includesJS code a = true →
      ∃ i, firstIndexOf code a = some i
        ∧ handleApplyFix code ⟨a, r⟩ = some (code.take i
            ++ getSubstitution a (code.take i) (code.drop (i + a.length)) r
            ++ code.drop (i + a.length))
        ∧ a.isPrefixOf (code.drop i) = true
        ∧ ∀ j, j < i → a.isPrefixOf (code.drop j) = false)
    ∧ (includesJS code a = false → includesJS code (trimJS a) = true →
      ∃ i, firstIndexOf code (trimJS a) = some i
        ∧ handleApplyFix code ⟨a, r⟩ = some (code.take i
            ++ getSubstitution (trimJS a) (code.take i) (code.drop (i + (trimJS a).length)) r
            ++ code.drop (i + (trimJS a).length))
        ∧ (trimJS a).isPrefixOf (code.drop i) = true
        ∧ ∀ j, j < i → (trimJS a).isPrefixOf (code.drop j) = false)
    ∧ (includesJS code a = false → includesJS code (trimJS a) = false →
      handleApplyFix code ⟨a, r⟩ = none)
    ∧ ((∀ c ∈ r, ¬ c = '$') → ∀ matched before after : List Char,
      getSubstitution matched before after r = r) := by
  refine ⟨?_, ?_, ?_, ?_⟩
  · intro h1
    obtain ⟨i, hi⟩ := includesJS_iff_firstIndexOf.mp h1
    refine ⟨i, hi, ?_, firstIndexOf_isPrefixOf hi, firstIndexOf_min hi⟩
    have hmt : handleApplyFix code ⟨a, r⟩ = some (replaceFirst code a r) := by
      rw [handleApplyFix]
      simp [h1]
    rw [hmt, replaceFirst_of_some r hi]
  · intro h1 h2
    obtain ⟨i, hi⟩ := includesJS_iff_firstIndexOf.mp h2
    refine ⟨i, hi, ?_, firstIndexOf_isPrefixOf hi, firstIndexOf_min hi⟩
    have hmt : handleApplyFix code ⟨a, r⟩ = some (replaceFirst code (trimJS a) r) := by
      rw [handleApplyFix]
      simp [h1, h2]
    rw [hmt, replaceFirst_of_some r hi]
  · intro h1 h2
    rw [handleApplyFix]
    simp [h1, h2]
  · intro h matched before after
    exact getSubstitution_no_dollar matched before after r h

/-- Witness for C3 (amended) on the trimmed-fallback branch: the matched text
` xb ` is absent from `abc  xb` but its trimmed form `xb` is present, and the
first (and only) occurrence is replaced. -/
theorem single_fix_behavior_witness :
    ∃ i, firstIndexOf ("abc  xb".toList) (trimJS (" xb ".toList)) = some i
      ∧ handleApplyFix ("abc  xb".toList) ⟨(" xb ".toList), ("Y".toList)⟩ =
          some (("abc  xb".toList).take i
            ++ getSubstitution (trimJS (" xb ".toList)) (("abc  xb".toList).take i)
                (("abc  xb".toList).drop (i + (trimJS (" xb ".toList)).length)) ("Y".toList)
            ++ ("abc  xb".toList).drop (i + (trimJS (" xb ".toList)).length))
      ∧ (trimJS (" xb ".toList)).isPrefixOf (("abc  xb".toList).drop i) = true
      ∧ ∀ j, j < i → (trimJS (" xb ".toList)).isPrefixOf (("abc  xb".toList).drop j) = false :=
  (single_fix_behavior ("abc  xb".toList) (" xb ".toList) ("Y".toList)).2.1
    (by decide) (by decide)

/-- Counterexample to claim C3 as frozen: with matched text `b` in `abc` and
replacement string `$&$&`, `String.replace` inserts the matched text twice
(`abbc`), not the replacement text verbatim (`a$&$&c`), so "replaces the first
occurrence with the replacement text" fails at this plain-ASCII input. -/
theorem single_fix_literal_counterexample :
    handleApplyFix ("abc".toList) ⟨("b".toList), ("$&$&".toList)⟩ = some ("abbc".toList)
    ∧ ¬ handleApplyFix ("abc".toList) ⟨("b".toList), ("$&$&".toList)⟩
        = some (("abc".toList).take 1 ++ ("$&$&".toList) ++ ("abc".toList).drop 2) := by
  decide

theorem fixAll_single_issue (text s r : List Char) (hs : s ≠ [])
    (hinc : includesJS text s = true) :
    handleFixAll text [⟨s, r⟩] =
      FixAllOutcome.applied (replaceAllOcc text s r) (countOccur text s) [s] [r] := by
  have hcount : 0 < countOccur text s := countOccur_pos_of_includes hs hinc
  have hlen : (splitJS text s).length = countOccur text s + 1 := splitJS_length hs
  have hjoin : joinWith r (splitJS text s) = replaceAllOcc text s r := joinWith_splitJS hs r
  have hsort : sortIssues [(⟨s, r⟩ : Issue)] = [⟨s, r⟩] := by
    simp [sortIssues]
  have hcore : fixAllCore text [⟨s, r⟩] =
      (replaceAllOcc text s r, countOccur text s, [s], [r]) := by
    rw [fixAllCore, hsort]
    simp only [List.foldl_cons, List.foldl_nil]
    rw [fixAllStep]
    simp only [hinc, if_true]
    simp only [hlen, if_pos (by omega : 1 < countOccur text s + 1)]
    simp [hjoin, hlen]
  rw [handleFixAll]
  simp only [List.isEmpty_cons, Bool.false_eq_true, if_false, hcore]
  simp only [if_neg (by omega : ¬ countOccur text s = 0)]

unseal splitGo countOccur replaceAllOcc in
/-- Claim C2: bulk fix processes the issues in descending matched-text-length
order (stable sort) against the progressively updated text and performs a
global replace per applicable issue: for a single found issue the new text is
the original with every leftmost non-overlapping occurrence replaced and the
applied count is the occurrence count; on a text containing the snippet
`foo()` three times, the result has 0 occurrences of `foo()`, 3 of `bar()`,
and applied count 3; and the longest matched text is applied first. -/
theorem bulk_fix_global_replace :
    (∀ issues : List Issue,
        (sortIssues issues).Perm issues ∧ List.Sorted lenGE (sortIssues issues))
    ∧ (∀ text s r : List Char, s ≠ [] → includesJS text s = true →
        handleFixAll text [⟨s, r⟩] =
          FixAllOutcome.applied (replaceAllOcc text s r) (countOccur text s) [s] [r])
    ∧ (handleFixAll ("foo(); foo(); foo();".toList)
          [⟨("foo()".toList), ("bar()".toList)⟩] =
        FixAllOutcome.applied ("bar(); bar(); bar();".toList) 3
          [("foo()".toList)] [("bar()".toList)]
      ∧ countOccur ("bar(); bar(); bar();".toList) ("foo()".toList) = 0
      ∧ countOccur ("bar(); bar(); bar();".toList) ("bar()".toList) = 3)
    ∧ handleFixAll ("forwardRef(a)".toList)
          [⟨("Ref(".toList), ("X(".toList)⟩, ⟨("forwardRef(".toList), ("func(".toList)⟩] =
        FixAllOutcome.applied ("func(a)".toList) 1
          [("forwardRef(".toList)] [("func(".toList)] := by
  refine ⟨fun issues =>
    ⟨List.perm_insertionSort lenGE issues, List.sorted_insertionSort lenGE issues⟩,
    fun text s r hs hinc => fixAll_single_issue text s r hs hinc,
    by decide, by decide⟩

/-- Witness for C2's universally quantified conjunct at a concrete text with
two occurrences. -/
theorem bulk_fix_global_replace_witness :
    handleFixAll ("ab ab".toList) [⟨("ab".toList), ("c".toList)⟩] =
      FixAllOutcome.applied (replaceAllOcc ("ab ab".toList) ("ab".toList) ("c".toList))
        (countOccur ("ab ab".toList) ("ab".toList)) [("ab".toList)] [("c".toList)] :=
  bulk_fix_global_replace.2.1 ("ab ab".toList) ("ab".toList) ("c".toList)
    (by decide) (by decide)

theorem foldl_fixAllStep_of_none (text : List Char) :
    ∀ l : List Issue,
      (∀ i ∈ l, includesJS text i.affectedCode = false
        ∧ includesJS text (trimJS i.affectedCode) = false) →
      l.foldl fixAllStep (text, 0, [], []) = (text, 0, [], []) := by
  intro l
  induction l with
  | nil => intro _; simp
  | cons a t ih =>
    intro h
    have ha := h a (by simp)
    have hstep : fixAllStep (text, 0, [], []) a = (text, 0, [], []) := by
      rw [fixAllStep]
      simp [ha.1, ha.2]
    simp only [List.foldl_cons, hstep]
    exact ih (fun i hi => h i (by simp [hi]))

/-- Claim C9: when bulk fix runs on a non-empty issue list none of whose
matched texts (exact or trimmed) occur in the text, the text is left unchanged
and the zero-applied outcome is reported by a value distinct from every
successful `applied` outcome. -/
theorem bulk_fix_no_applicable (text : List Char) (issues : List Issue)
    (hne : issues ≠ [])
    (hnone : ∀ i ∈ issues, includesJS text i.affectedCode = false
      ∧ includesJS text (trimJS i.affectedCode) = false) :
    handleFixAll text issues = FixAllOutcome.noApplicableFixes
    ∧ (fixAllCore text issues).1 = text
    ∧ ∀ (t : List Char) (n : Nat) (os ms : List (List Char)),
        FixAllOutcome.noApplicableFixes ≠ FixAllOutcome.applied t n os ms := by
  have hcore : fixAllCore text issues = (text, 0, [], []) := by
    rw [fixAllCore]
    exact foldl_fixAllStep_of_none text _
      (fun i hi => hnone i ((List.perm_insertionSort lenGE issues).subset hi))
  have hie : issues.isEmpty = false := by
    cases issues with
    | nil => exact absurd rfl hne
    | cons a t => rfl
  refine ⟨?_, by rw [hcore], fun t n os ms h => FixAllOutcome.noConfusion h⟩
  rw [handleFixAll]
  simp [hie, hcore]

/-- Witness for C9: one issue whose matched text occurs nowhere in `abc`. -/
theorem bulk_fix_no_applicable_witness :
    handleFixAll ("abc".toList) [⟨(" zz ".toList), ("y".toList)⟩] =
      FixAllOutcome.noApplicableFixes
    ∧ (fixAllCore ("abc".toList) [⟨(" zz ".toList), ("y".toList)⟩]).1 = ("abc".toList)
    ∧ ∀ (t : List Char) (n : Nat) (os ms : List (List Char)),
        FixAllOutcome.noApplicableFixes ≠ FixAllOutcome.applied t n os ms :=
  bulk_fix_no_applicable ("abc".toList) [⟨(" zz ".toList), ("y".toList)⟩]
    (by decide) (by decide)

/-! ## Lemmas about the regex engine and the exec loop -/

theorem matchLenAux_le {r : Rx} {t : List Char} :
    ∀ {n L : Nat}, matchLenAux r t n = some L → L ≤ n := by
  intro n
  induction n with
  | zero =>
    intro L h
    rw [matchLenAux] at h
    split at h
    · cases h; exact le_refl _
    · cases h
  | succ n ih =>
    intro L h
    rw [matchLenAux] at h
    split at h
    · cases h; exact le_refl _
    · exact le_trans (ih h) (by omega)

theorem matchLenAux_zero_nullable {r : Rx} {t : List Char} :
    ∀ {n : Nat}, matchLenAux r t n = some 0 → nullable r = true := by
  intro n
  induction n with
  | zero =>
    intro h
    rw [matchLenAux] at h
    split at h
    · assumption
    · cases h
  | succ n ih =>
    intro h
    rw [matchLenAux] at h
    split at h
    · cases h
    · exact ih h

theorem matchLen_le {r : Rx} {t : List Char} {L : Nat} (h : matchLen r t = some L) :
    L ≤ t.length :=
  matchLenAux_le h

theorem matchLen_pos {r : Rx} {t : List Char} {L : Nat} (hr : nullable r = false)
    (h : matchLen r t = some L) : 0 < L := by
  cases L with
  | zero => rw [matchLenAux_zero_nullable h] at hr; cases hr
  | succ L => omega

theorem findFrom_sound {r : Rx} {s : List Char} :
    ∀ (n pos i L : Nat), s.length + 1 - pos ≤ n → findFrom r s pos = some (i, L) →
      pos ≤ i ∧ i ≤ s.length ∧ matchLen r (List.drop i s) = some L := by
  intro n
  induction n with
  | zero =>
    intro pos i L hn hf
    rw [findFrom] at hf
    rw [dif_neg (by omega : ¬ pos ≤ s.length)] at hf
    cases hf
  | succ n ih =>
    intro pos i L hn hf
    rw [findFrom] at hf
    by_cases hp : pos ≤ s.length
    · rw [dif_pos hp] at hf
      cases hm : matchLen r (List.drop pos s) with
      | some L2 =>
        rw [hm] at hf
        cases hf
        exact ⟨le_refl _, hp, hm⟩
      | none =>
        rw [hm] at hf
        obtain ⟨h1, h2, h3⟩ := ih (pos + 1) i L (by omega) hf
        exact ⟨by omega, h2, h3⟩
    · rw [dif_neg hp] at hf
      cases hf

theorem execAllF_isSome {r : Rx} (hr : nullable r = false) (s : List Char) :
    ∀ (fuel pos : Nat), s.length - pos < fuel → (execAllF r s fuel pos).isSome = true := by
  intro fuel
  induction fuel with
  | zero => intro pos h; omega
  | succ fl ih =>
    intro pos h
    rw [execAllF]
    cases hf : findFrom r s pos with
    | none => rfl
    | some m =>
      obtain ⟨i, L⟩ := m
      obtain ⟨h1, h2, h3⟩ := findFrom_sound (s.length + 1 - pos) pos i L (le_refl _) hf
      have hL : 0 < L := matchLen_pos hr h3
      have hLe : L ≤ s.length - i := by
        have := matchLen_le h3
        simpa [List.length_drop] using this
      obtain ⟨ms, hms⟩ := Option.isSome_iff_exists.mp (ih (i + L) (by omega))
      show (Option.map (fun ms => (i, L) :: ms) (execAllF r s fl (i + L))).isSome = true
      rw [hms]
      rfl

theorem execAllF_bounds {r : Rx} {s : List Char} :
    ∀ (fuel pos : Nat) (ms : List (Nat × Nat)), execAllF r s fuel pos = some ms →
      ∀ m ∈ ms, pos ≤ m.1 ∧ m.1 + m.2 ≤ s.length
        ∧ matchLen r (List.drop m.1 s) = some m.2 := by
  intro fuel
  induction fuel with
  | zero =>
    intro pos ms h
    rw [execAllF] at h
    cases h
  | succ fl ih =>
    intro pos ms h
    rw [execAllF] at h
    cases hf : findFrom r s pos with
    | none =>
      rw [hf] at h
      have h2 : some ([] : List (Nat × Nat)) = some ms := h
      cases h2
      intro m hm
      cases hm
    | some p =>
      obtain ⟨i, L⟩ := p
      rw [hf] at h
      have h2 : Option.map (fun ms => (i, L) :: ms) (execAllF r s fl (i + L)) = some ms := h
      obtain ⟨ms2, hms2, rfl⟩ := Option.map_eq_some'.mp h2
      obtain ⟨h1, h2, h3⟩ := findFrom_sound (s.length + 1 - pos) pos i L (le_refl _) hf
      have hlen : L ≤ (List.drop i s).length := matchLen_le h3
      intro m hm
      rcases List.mem_cons.mp hm with rfl | hm2
      · refine ⟨h1, ?_, h3⟩
        simp [List.length_drop] at hlen
        omega
      · obtain ⟨g1, g2, g3⟩ := ih (i + L) ms2 hms2 m hm2
        exact ⟨by omega, g2, g3⟩

theorem execAll_bounds {r : Rx} {s : List Char} {ms : List (Nat × Nat)}
    (h : execAll r s = some ms) :
    ∀ m ∈ ms, m.1 + m.2 ≤ s.length ∧ matchLen r (List.drop m.1 s) = some m.2 := by
  intro m hm
  obtain ⟨_, h2, h3⟩ := execAllF_bounds (s.length + 1) 0 ms h m hm
  exact ⟨h2, h3⟩

theorem patterns_not_nullable :
    emulatorProfilePatterns.all (fun ps => ps.all (fun r => !(nullable r))) = true := by
  decide

/-- Claim C10: for every input text and every rule pattern of the four built-in
profiles (react-19, node-24, angular-2026, vue-5), the global exec loop of the
scan terminates — none of these patterns can match an empty substring, so
every iteration strictly advances `lastIndex`, and the match list is produced
within the a-priori iteration bound. -/
theorem scan_terminates (ps : List Rx) (hp : ps ∈ emulatorProfilePatterns)
    (r : Rx) (hr : r ∈ ps) (code : List Char) :
    (execAll r code).isSome = true := by
  have h1 := List.all_eq_true.mp patterns_not_nullable ps hp
  have h2 := List.all_eq_true.mp h1 r hr
  have hnn : nullable r = false := by simpa using h2
  rw [execAll]
  exact execAllF_isSome hnn code (code.length + 1) 0 (by omega)

/-- Witness for C10: the zone-usage pattern of the angular-2026 profile scans a
concrete text to completion. -/
theorem scan_terminates_witness :
    (execAll patNgZone ("let x = NgZone;".toList)).isSome = true :=
  scan_terminates angularPatterns (by simp [emulatorProfilePatterns])
    patNgZone (by simp [angularPatterns]) ("let x = NgZone;".toList)

/-! ## Lemmas about the scan (`runSimulation`) -/

theorem scanGo_logs (code : List Char) :
    ∀ (rules : List BreakageRule) (patched : List Char)
      (out : List DetectedBreakage × List (List Char) × List Char),
      scanGo code rules patched = some out →
      out.2.1 = (rules.filter
        (fun rl => !(((ruleMatches rl code).getD []).isEmpty))).map logLineOf := by
  intro rules
  induction rules with
  | nil =>
    intro patched out h
    rw [scanGo] at h
    cases h
    simp
  | cons rule rest ih =>
    intro patched out h
    rw [scanGo] at h
    cases hm : ruleMatches rule code with
    | none => rw [hm] at h; cases h
    | some ms =>
      rw [hm] at h
      have h2 : (scanGo code rest
          (if !ms.isEmpty then
            (match rule.fixReplacer with | some f => f patched | none => patched)
          else patched)).map (fun out =>
            ((ms.map (mkBreakage code rule) ++ out.1 : List DetectedBreakage),
             ((if !ms.isEmpty then [logLineOf rule] else []) ++ out.2.1 : List (List Char)),
             out.2.2)) = some out := h
      obtain ⟨out2, hout2, rfl⟩ := Option.map_eq_some'.mp h2
      have hrest := ih _ out2 hout2
      by_cases hms : ms.isEmpty
      · simp [List.filter_cons, hm, hms, hrest]
      · simp [List.filter_cons, hm, hms, hrest]

theorem scanGo_breakages (code : List Char) :
    ∀ (rules : List BreakageRule) (patched : List Char)
      (out : List DetectedBreakage × List (List Char) × List Char),
      scanGo code rules patched = some out →
      ∀ b ∈ out.1, ∃ rl ms m, rl ∈ rules ∧ ruleMatches rl code = some ms ∧ m ∈ ms
        ∧ b = mkBreakage code rl m := by
  intro rules
  induction rules with
  | nil =>
    intro patched out h
    rw [scanGo] at h
    cases h
    intro b hb
    cases hb
  | cons rule rest ih =>
    intro patched out h
    rw [scanGo] at h
    cases hm : ruleMatches rule code with
    | none => rw [hm] at h; cases h
    | some ms =>
      rw [hm] at h
      have h2 : (scanGo code rest
          (if !ms.isEmpty then
            (match rule.fixReplacer with | some f => f patched | none => patched)
          else patched)).map (fun out =>
            ((ms.map (mkBreakage code rule) ++ out.1 : List DetectedBreakage),
             ((if !ms.isEmpty then [logLineOf rule] else []) ++ out.2.1 : List (List Char)),
             out.2.2)) = some out := h
      obtain ⟨out2, hout2, rfl⟩ := Option.map_eq_some'.mp h2
      intro b hb
      rcases List.mem_append.mp hb with hb1 | hb2
      · obtain ⟨m, hmm, rfl⟩ := List.mem_map.mp hb1
        exact ⟨rule, ms, m, List.mem_cons_self _ _, hm, hmm, rfl⟩
      · obtain ⟨rl, ms2, m, hrl, g1, g2, g3⟩ := ih _ out2 hout2 b hb2
        exact ⟨rl, ms2, m, List.mem_cons_of_mem _ hrl, g1, g2, g3⟩

theorem runSimulation_inv {code : List Char} {profile : EmulatorProfile}
    {res : EmulationResult} (h : runSimulation code profile = some res) :
    ∃ out, scanGo code profile.rules code = some out
      ∧ res.breakages = out.1
      ∧ res.logs = bootLog profile :: (out.2.1 ++
          [if out.1.isEmpty then successLog profile else terminatedLog out.1.length])
      ∧ res.patchedCode = (if out.2.2 ≠ code then out.2.2 else [])
      ∧ res.score = computeScore out.1 := by
  rw [runSimulation] at h
  obtain ⟨out, hout, rfl⟩ := Option.map_eq_some'.mp h
  exact ⟨out, hout, rfl, rfl, rfl, rfl⟩

/-- Claim C5: every finding produced by a scan carries the 1-based line number
computed as 1 plus the number of newline characters in the prefix of the input
strictly before the match start offset. -/
theorem finding_line_numbers (code : List Char) (profile : EmulatorProfile)
    (res : EmulationResult) (h : runSimulation code profile = some res) :
    ∀ b ∈ res.breakages, ∃ i L, i + L ≤ code.length
      ∧ b.matchText = (code.drop i).take L
      ∧ b.line = 1 + (code.take i).count '\n' := by
  obtain ⟨out, hout, hbs, _, _, _⟩ := runSimulation_inv h
  intro b hb
  rw [hbs] at hb
  obtain ⟨rl, ms, m, hrl, hms, hmm, rfl⟩ :=
    scanGo_breakages code profile.rules code out hout b hb
  refine ⟨m.1, m.2, (execAll_bounds hms m hmm).1, rfl, ?_⟩
  show (splitJS (code.take m.1) ['\n']).length = 1 + (code.take m.1).count '\n'
  exact splitJS_newline_length _

unseal splitGo findFrom in
/-- Witness for C5: scanning `a\nNgZone` with the zone-usage rule yields a
finding on line 2 with the stated prefix property. -/
theorem finding_line_numbers_witness :
    ∃ i L, i + L ≤ ("a\nNgZone".toList).length
      ∧ (mkBreakage ("a\nNgZone".toList) zoneRule (2, 6)).matchText
          = (("a\nNgZone".toList).drop i).take L
      ∧ (mkBreakage ("a\nNgZone".toList) zoneRule (2, 6)).line
          = 1 + (("a\nNgZone".toList).take i).count '\n' :=
  finding_line_numbers ("a\nNgZone".toList) zoneProfile
    ⟨75, [mkBreakage ("a\nNgZone".toList) zoneRule (2, 6)], [],
      [bootLog zoneProfile,
       ("[Error] Runtime Exception: ".toList) ++ zoneRule.message,
       terminatedLog 1]⟩
    (by decide) (mkBreakage ("a\nNgZone".toList) zoneRule (2, 6)) (by decide)

/-- Amended claim C7: for every rule with at least one match the scan emits
exactly one log line, in rule order, and that line is
`"[Error] Runtime Exception: <message>"` for Critical severity and
`"[Warn] Deprecation Notice: <message>"` otherwise (the claim as frozen omits
the `Runtime Exception: ` / `Deprecation Notice: ` infixes; see the
counterexample). -/
theorem scan_log_lines (code : List Char) (profile : EmulatorProfile)
    (res : EmulationResult) (h : runSimulation code profile = some res) :
    res.logs = bootLog profile ::
      ((profile.rules.filter
          (fun rl => !(((ruleMatches rl code).getD []).isEmpty))).map logLineOf
        ++ [if res.breakages.isEmpty then successLog profile
            else terminatedLog res.breakages.length]) := by
  obtain ⟨out, hout, hbs, hlogs, _, _⟩ := runSimulation_inv h
  rw [hlogs, hbs, scanGo_logs code profile.rules code out hout]

unseal splitGo findFrom in
/-- Witness for C7 (amended) at a concrete scan: one matching Critical rule
produces exactly the boot line, one `[Error] Runtime Exception:` line, and the
terminal summary line. -/
theorem scan_log_lines_witness :
    (⟨75, [mkBreakage ("NgZone".toList) zoneRule (0, 6)], [],
      [bootLog zoneProfile,
       ("[Error] Runtime Exception: ".toList) ++ zoneRule.message,
       terminatedLog 1]⟩ : EmulationResult).logs =
      bootLog zoneProfile ::
        ((zoneProfile.rules.filter
            (fun rl => !(((ruleMatches rl ("NgZone".toList)).getD []).isEmpty))).map logLineOf
          ++ [if (⟨75, [mkBreakage ("NgZone".toList) zoneRule (0, 6)], [],
                [bootLog zoneProfile,
                 ("[Error] Runtime Exception: ".toList) ++ zoneRule.message,
                 terminatedLog 1]⟩ : EmulationResult).breakages.isEmpty
              then successLog zoneProfile
              else terminatedLog (⟨75, [mkBreakage ("NgZone".toList) zoneRule (0, 6)], [],
                [bootLog zoneProfile,
                 ("[Error] Runtime Exception: ".toList) ++ zoneRule.message,
                 terminatedLog 1]⟩ : EmulationResult).breakages.length]) :=
  scan_log_lines ("NgZone".toList) zoneProfile _ (by decide)

unseal splitGo findFrom in
/-- Counterexample to claim C7 as frozen: for a scan in which the Critical
zone-usage rule matches, the log line `"[Error] <message>"` does not occur in
the logs — the emitted line is `"[Error] Runtime Exception: <message>"`. -/
theorem scan_log_lines_counterexample :
    (runSimulation ("NgZone".toList) zoneProfile).map (fun r => r.breakages.length)
        = some 1
    ∧ (runSimulation ("NgZone".toList) zoneProfile).map
        (fun r => decide ((("[Error] ".toList) ++ zoneRule.message) ∈ r.logs)) = some false
    ∧ (runSimulation ("NgZone".toList) zoneProfile).map
        (fun r => decide ((("[Error] Runtime Exception: ".toList) ++ zoneRule.message)
          ∈ r.logs)) = some true := by
  decide

/-- Amended claim C6: when no rule produced a change to the input text, the
result field `patchedCode` is the EMPTY string — the component uses `''` as a
"no patch available" sentinel (`patchedCode !== code ? patchedCode : ''`) — so
it equals the original input only when that input is itself empty. -/
theorem rewrite_unchanged_sentinel (code : List Char) (profile : EmulatorProfile)
    (out : List DetectedBreakage × List (List Char) × List Char)
    (h : scanGo code profile.rules code = some out) (hp : out.2.2 = code) :
    (runSimulation code profile).map (fun r => r.patchedCode) = some []
    ∧ ((runSimulation code profile).map (fun r => r.patchedCode) = some code
        ↔ code = []) := by
  have hrun : (runSimulation code profile).map (fun r => r.patchedCode) = some [] := by
    rw [runSimulation, h]
    simp [hp]
  refine ⟨hrun, ?_⟩
  rw [hrun]
  simp [eq_comm]

unseal splitGo findFrom in
/-- Witness for C6 (amended): a no-match scan of `hello` returns the empty
patched text, which differs from the (non-empty) original. -/
theorem rewrite_unchanged_sentinel_witness :
    (runSimulation ("hello".toList) zoneProfile).map (fun r => r.patchedCode) = some []
    ∧ ((runSimulation ("hello".toList) zoneProfile).map (fun r => r.patchedCode)
        = some ("hello".toList) ↔ ("hello".toList : List Char) = []) :=
  rewrite_unchanged_sentinel ("hello".toList) zoneProfile
    ([], [], ("hello".toList)) (by decide) (by decide)

unseal splitGo findFrom in
/-- Counterexample to claim C6 as frozen: in a scan of `hello` no rule produced
a change (the threaded patched text stays equal to the input), yet the returned
`patchedCode` is the empty string, not the original text. -/
theorem rewrite_unchanged_counterexample :
    scanGo ("hello".toList) zoneProfile.rules ("hello".toList)
        = some ([], [], ("hello".toList))
    ∧ (runSimulation ("hello".toList) zoneProfile).map (fun r => r.patchedCode) = some []
    ∧ ¬ (runSimulation ("hello".toList) zoneProfile).map (fun r => r.patchedCode)
        = some ("hello".toList) := by
  decide

/-! ## String-built matchers are compiled as regexes (C4) -/

theorem derivs_cons (r : Rx) (c : Char) (l : List Char) :
    derivs r (c :: l) = derivs (deriv c r) l := rfl

theorem derivs_emp (l : List Char) : derivs Rx.emp l = Rx.emp := by
  induction l with
  | nil => rfl
  | cons c t ih => exact ih

theorem derivs_alt (l : List Char) :
    ∀ a b : Rx, derivs (Rx.alt a b) l = Rx.alt (derivs a l) (derivs b l) := by
  induction l with
  | nil => intro a b; rfl
  | cons c t ih => intro a b; exact ih (deriv c a) (deriv c b)

theorem derivs_seq_emp (x : Rx) (l : List Char) :
    derivs (Rx.seq Rx.emp x) l = Rx.seq Rx.emp x := by
  induction l with
  | nil => rfl
  | cons c t ih => exact ih

theorem nullable_derivs_seq_eps (x : Rx) (l : List Char) :
    nullable (derivs (Rx.seq Rx.eps x) l) = nullable (derivs x l) := by
  cases l with
  | nil => simp [derivs, nullable]
  | cons c t =>
    rw [derivs_cons,
      show deriv c (Rx.seq Rx.eps x) = Rx.alt (Rx.seq Rx.emp x) (deriv c x) from rfl,
      derivs_alt, derivs_seq_emp, derivs_cons]
    simp [nullable]

theorem matchesTake_succ_cons (r : Rx) (a : Char) (t : List Char) (m : Nat) :
    matchesTake r (a :: t) (m + 1) = matchesTake (deriv a r) t m := rfl

theorem matchesTake_seq_eps (x : Rx) (t : List Char) (m : Nat) :
    matchesTake (Rx.seq Rx.eps x) t m = matchesTake x t m :=
  nullable_derivs_seq_eps x (t.take m)

theorem matchesTake_seq_emp (x : Rx) (t : List Char) (m : Nat) :
    matchesTake (Rx.seq Rx.emp x) t m = false := by
  show nullable (derivs (Rx.seq Rx.emp x) (t.take m)) = false
  rw [derivs_seq_emp]
  rfl

theorem strToRx_cons (c : Char) (s : List Char) :
    strToRx (c :: s) =
      Rx.seq (if c = '.' then Rx.cls (fun _ => true) else lchr c) (strToRx s) := rfl

theorem deriv_strToRx_cons (a c : Char) (s : List Char) :
    deriv a (strToRx (c :: s)) =
      Rx.seq (if (if c = '.' then true else (decide (a = c))) then Rx.eps else Rx.emp)
        (strToRx s) := by
  by_cases hc : c = '.'
  · simp only [strToRx_cons, if_pos hc]
    rfl
  · simp only [strToRx_cons, if_neg hc]
    rfl

theorem litMatches_length :
    ∀ (s t : List Char), litMatches s t = true → s.length ≤ t.length := by
  intro s
  induction s with
  | nil => intro t _; simp
  | cons c s ih =>
    intro t h
    cases t with
    | nil => cases h
    | cons a t =>
      have h2 := (Bool.and_eq_true _ _).mp h
      have := ih t h2.2
      simp
      omega

theorem matchesTake_strToRx :
    ∀ (s t : List Char) (n : Nat), n ≤ t.length →
      (matchesTake (strToRx s) t n = true ↔ (n = s.length ∧ litMatches s t = true)) := by
  intro s
  induction s with
  | nil =>
    intro t n hn
    cases n with
    | zero => simp [matchesTake, derivs, strToRx, nullable, litMatches]
    | succ m =>
      cases t with
      | nil => simp at hn
      | cons a t =>
        rw [show strToRx [] = Rx.eps from rfl, matchesTake_succ_cons,
          show deriv a Rx.eps = Rx.emp from rfl]
        have hemp : matchesTake Rx.emp t m = false := by
          show nullable (derivs Rx.emp (t.take m)) = false
          rw [derivs_emp]
          rfl
        rw [hemp]
        simp
  | cons c s ih =>
    intro t n hn
    cases n with
    | zero =>
      have h0 : matchesTake (strToRx (c :: s)) t 0 = nullable (strToRx (c :: s)) := rfl
      rw [h0, strToRx_cons]
      by_cases hc : c = '.' <;> simp [hc, nullable, litMatches]
    | succ m =>
      cases t with
      | nil => simp at hn
      | cons a t =>
        rw [matchesTake_succ_cons, deriv_strToRx_cons]
        by_cases hpa : (if c = '.' then true else decide (a = c)) = true
        · rw [if_pos hpa, matchesTake_seq_eps, ih t m (by simpa using hn)]
          show (m = s.length ∧ litMatches s t = true) ↔
            (m + 1 = (c :: s).length ∧ litMatches (c :: s) (a :: t) = true)
          rw [show litMatches (c :: s) (a :: t) =
            ((if c = '.' then true else decide (a = c)) && litMatches s t) from rfl]
          rw [hpa]
          simp
        · rw [if_neg hpa, matchesTake_seq_emp]
          rw [show litMatches (c :: s) (a :: t) =
            ((if c = '.' then true else decide (a = c)) && litMatches s t) from rfl]
          have hfa : (if c = '.' then true else decide (a = c)) = false :=
            Bool.eq_false_iff.mpr hpa
          rw [hfa]
          simp

theorem matchLenAux_eq_none {r : Rx} {t : List Char} :
    ∀ n : Nat, (∀ k, k ≤ n → matchesTake r t k = false) → matchLenAux r t n = none := by
  intro n
  induction n with
  | zero =>
    intro h
    rw [matchLenAux]
    have h0 : nullable r = matchesTake r t 0 := rfl
    rw [if_neg (by rw [h0, h 0 (le_refl _)]; simp)]
  | succ n ih =>
    intro h
    rw [matchLenAux]
    rw [if_neg (by rw [h (n + 1) (le_refl _)]; simp)]
    exact ih (fun k hk => h k (by omega))

theorem matchLenAux_eq_some {r : Rx} {t : List Char} {v : Nat}
    (hv : matchesTake r t v = true) :
    ∀ n : Nat, v ≤ n → (∀ k, v < k → k ≤ n → matchesTake r t k = false) →
      matchLenAux r t n = some v := by
  intro n
  induction n with
  | zero =>
    intro hvn _
    have hv0 : v = 0 := by omega
    subst hv0
    rw [matchLenAux]
    have h0 : nullable r = matchesTake r t 0 := rfl
    rw [if_pos (by rw [h0, hv])]
  | succ n ih =>
    intro hvn hk
    rw [matchLenAux]
    by_cases hvs : v = n + 1
    · subst hvs
      rw [if_pos hv]
    · rw [if_neg (by rw [hk (n + 1) (by omega) (le_refl _)]; simp)]
      exact ih (by omega) (fun k h1 h2 => hk k h1 (by omega))

theorem matchLen_strToRx (s t : List Char) :
    matchLen (strToRx s) t = if litMatches s t then some s.length else none := by
  by_cases hl : litMatches s t = true
  · rw [if_pos hl]
    exact matchLenAux_eq_some
      ((matchesTake_strToRx s t s.length (litMatches_length s t hl)).mpr ⟨rfl, hl⟩)
      t.length (litMatches_length s t hl)
      (fun k h1 h2 => by
        cases hmk : matchesTake (strToRx s) t k with
        | false => rfl
        | true =>
          have := (matchesTake_strToRx s t k h2).mp hmk
          omega)
  · rw [if_neg hl]
    exact matchLenAux_eq_none t.length (fun k hk => by
      cases hmk : matchesTake (strToRx s) t k with
      | false => rfl
      | true =>
        have := (matchesTake_strToRx s t k hk).mp hmk
        exact absurd this.2 hl)

theorem litMatches_dotFree :
    ∀ (s t : List Char), (∀ c ∈ s, ¬ c = '.') → litMatches s t = s.isPrefixOf t := by
  intro s
  induction s with
  | nil =>
    intro t _
    cases t <;> simp [litMatches, List.isPrefixOf]
  | cons c s ih =>
    intro t h
    have hc : ¬ c = '.' := h c (by simp)
    cases t with
    | nil => simp [litMatches, List.isPrefixOf]
    | cons a t =>
      show ((if c = '.' then true else decide (a = c)) && litMatches s t)
        = ((c == a) && s.isPrefixOf t)
      rw [if_neg hc, ih t (fun x hx => h x (by simp [hx]))]
      congr 1
      by_cases hac : a = c
      · simp [hac]
      · simp [hac, Ne.symm hac]

/-- Amended claim C4: a rule whose matcher is a plain string is compiled with
`new RegExp(pattern, 'g')`, i.e. the string is interpreted as a regular
expression, NOT matched literally: within the modelled fragment each `.` in
the string matches any single character, so the findings can differ from the
literal occurrences of the string; literal matching is recovered exactly when
the string contains no `.` metacharacter. -/
theorem string_matcher_regex (s code : List Char) (rule : BreakageRule)
    (hrule : rule.pattern = Matcher.strPat s) :
    ruleMatches rule code = execAll (strToRx s) code
    ∧ (∀ t : List Char,
        matchLen (strToRx s) t = if litMatches s t then some s.length else none)
    ∧ (∀ t : List Char, (∀ c ∈ s, ¬ c = '.') → litMatches s t = s.isPrefixOf t) := by
  refine ⟨?_, fun t => matchLen_strToRx s t, fun t h => litMatches_dotFree s t h⟩
  simp [ruleMatches, ruleRx, hrule]

/-- Witness for C4 (amended): the string matcher `a.c` compiled as a regex,
whose wildcard matches the 3-character text `axc`. -/
theorem string_matcher_regex_witness :
    ruleMatches dotRule ("axc".toList) = execAll (strToRx ("a.c".toList)) ("axc".toList)
    ∧ matchLen (strToRx ("a.c".toList)) ("axc".toList) = some 3 := by
  have h := string_matcher_regex ("a.c".toList) ("axc".toList) dotRule rfl
  refine ⟨h.1, ?_⟩
  rw [h.2.1 ("axc".toList)]
  decide

unseal countOccur findFrom in
/-- Counterexample to claim C4 as frozen: the string rule `a.c` scanned over
`axc` yields one finding, although the string `a.c` has zero literal
occurrences in `axc` — the `.` was given its regex wildcard meaning. -/
theorem string_matcher_literal_counterexample :
    (ruleMatches dotRule ("axc".toList)).map (fun ms => ms.length) = some 1
    ∧ countOccur ("axc".toList) ("a.c".toList) = 0 := by
  decide

end DeprecCheck
